import Mathlib

/- Shallow embedding of src/src/monte_carlo.rs: a time-bounded Monte Carlo
   tree search with UCB1 selection over an abstract game-state interface.

   Modelling conventions:
   * f64 is modelled as the real numbers, i32 counters as the integers;
   * HashMap (the statistics store) is a function to Option, HashSet (the
     visited set) is a function to Bool;
   * the random source (rand::random) is a stream rng : Nat -> Nat together
     with an explicit cursor counting how many draws have been consumed;
   * the wall-clock loop of tree_search is modelled by an iteration count;
   * Rust panics (unwrap on a missing entry, remainder by zero in
     choose_random) are Except errors, each call site with its own tag;
   * loops that are not structurally bounded (the playout loop and the
     tree-policy descent) take fuel, exhaustion being its own error;
   * tree_policyAux and the search loop additionally thread a log
     recording the num_plays argument of every ucb1 invocation, used to
     state that the division-by-zero case of ucb1 is never reached. -/

namespace MonteCarlo

/-- game_state::Color: the two players plus the neutral value used for
empty cells; the source only ever distinguishes White and Black and has a
wildcard arm for the rest. -/
inductive Color where
  | White
  | Black
  | Nobody
deriving DecidableEq

/-- game_state::End: outcome enumeration, with an in-progress variant
covered by the wildcard arms of the source. -/
inductive End where
  | InProgress
  | Tie
  | Victory (c : Color)
deriving DecidableEq

/-- UCTData: per-position bandit statistics (wins : f64, num_plays : i32,
win_tie : i32). -/
structure UCTData where
  wins : ℝ
  num_plays : ℤ
  win_tie : ℤ

/-- UCTData::new: wins and plays as given, win_tie starting at zero. -/
def UCTData.new (w : ℝ) (n : ℤ) : UCTData :=
  ⟨w, n, 0⟩

/-- The abstract interface to the game-rules collaborator (the game_state
module is not part of the core source): player field access, legal move
generation, move application, terminal detection, and the canonical
default move Move::white_new(0). -/
structure GameIface (State Move : Type) where
  player : State → Color
  legal_moves : State → Color → List Move
  place : State → Move → State
  win : State → End
  white_new_zero : Move

/-- TreePolicyResult: the path walked by the tree policy plus the
expanded (or terminal) node reached. -/
structure TreePolicyResult (State : Type) where
  path : List State
  expanded_node : State

/-- Error tags for the Rust failure points: fuel exhaustion of a modelled
loop, choose_random on an empty list (remainder by zero), unwrap of a
missing statistics entry, and unwrap of last() on an empty move list. -/
inductive Err where
  | outOfFuel
  | emptyChoose
  | missingStats
  | emptyLast
deriving DecidableEq

/-- ucb1: sqrt((2 * ln total_played) / number_played) + win_value /
number_played, with f64 modelled as the reals. -/
noncomputable def ucb1 (win_value number_played total_played : ℝ) : ℝ :=
  Real.sqrt ((2 * Real.log total_played) / number_played) +
    win_value / number_played

/-- victory: true exactly on Victory and Tie. -/
def victory (e : End) : Bool :=
  match e with
  | End.Victory _ => true
  | End.Tie => true
  | _ => false

/-- choose_random: index by a fresh random draw modulo the length; the
remainder by zero on an empty list (a Rust panic) is the emptyChoose
error. -/
def choose_random {Move : Type} (possible_moves : List Move) (r : ℕ) :
    Except Err Move :=
  match possible_moves[r % possible_moves.length]? with
  | some m => Except.ok m
  | none => Except.error Err.emptyChoose

section Engine

variable {State Move : Type} [DecidableEq State]

/-- The playout loop of run_simulation.  Faithful to the source, including
its use of the original state argument when computing possible_moves
(line 71 reads state.legal_moves, not current_state.legal_moves). -/
def run_simulationAux (G : GameIface State Move) (state : State)
    (rng : ℕ → ℕ) :
    ℕ → State → ℕ → Except Err (End × ℕ)
  | 0, _, _ => Except.error Err.outOfFuel
  | fuel + 1, current_state, k =>
    if victory (G.win current_state) then Except.ok (G.win current_state, k)
    else
      let current_player := G.player current_state
      let possible_moves := G.legal_moves state current_player
      if possible_moves.length < 1 then Except.ok (G.win current_state, k)
      else
        match choose_random possible_moves (rng k) with
        | Except.error e => Except.error e
        | Except.ok random_move =>
          run_simulationAux G state rng fuel
            (G.place current_state random_move) (k + 1)

/-- run_simulation(state, player): random playout from state; the player
argument is carried but, as in the source, never read. -/
def run_simulation (G : GameIface State Move) (fuel : ℕ) (state : State)
    (player : Color) (rng : ℕ → ℕ) (k : ℕ) : Except Err (End × ℕ) :=
  run_simulationAux G state rng fuel state k

/-- get_result_value: reward of an outcome from a perspective; tie is one
half, a victory for the perspective is one, anything else zero. -/
noncomputable def get_result_value (result : End) (player : Color) : ℝ :=
  match result with
  | End.Tie => 0.5
  | End.Victory color => if color = player then 1 else 0
  | _ => 0

/-- get_tie_or_win: same shape with ties also counting as one. -/
def get_tie_or_win (result : End) (player : Color) : ℤ :=
  match result with
  | End.Tie => 1
  | End.Victory color => if color = player then 1 else 0
  | _ => 0

/-- state_previous_player: the player field names who moves next, so the
previous mover is the opposite color, with a wildcard arm sending the
neutral color to White. -/
def state_previous_player (G : GameIface State Move) (state : State) :
    Color :=
  match G.player state with
  | Color.White => Color.Black
  | Color.Black => Color.White
  | _ => Color.White

/-- The strict-improvement selection loop shared by the UCB1 descent and
by optimal_move_most_visisted: fold over the candidates keeping the first
strictly improving (key, score) pair. -/
def selLoop {α γ β : Type _} [LinearOrder β] (key : α → γ) (score : α → β) :
    List α → γ × β → γ × β
  | [], best => best
  | x :: rest, best =>
    selLoop key score rest (if score x > best.2 then (key x, score x) else best)

/-- The inner for-loop of the fully-explored branch of tree_policy: score
every legal move's child by ucb1, keeping the first strict improvement
over the running best; every stats lookup is an unwrap.  The extra list
argument logs the num_plays value handed to each ucb1 invocation. -/
noncomputable def selectUcb1 (G : GameIface State Move)
    (stats : State → Option UCTData) (current_node : State)
    (total_played : ℤ) :
    List Move → Move × ℝ → List ℤ → List ℤ × Except Err (Move × ℝ)
  | [], best, log => (log, Except.ok best)
  | possibility :: rest, best, log =>
    match stats (G.place current_node possibility) with
    | none => (log, Except.error Err.missingStats)
    | some data =>
      let uct := ucb1 data.wins (data.num_plays : ℝ) (total_played : ℝ)
      selectUcb1 G stats current_node total_played rest
        (if uct > best.2 then (possibility, uct) else best)
        (log ++ [data.num_plays])

/-- The loop of tree_policy.  Each pass pushes the current node on the
path; a node with no legal moves or a decided game is returned as the
expanded node; otherwise, if some child is unvisited, a uniformly random
unvisited child is expanded, and if all children are visited the walk
descends into the best child by ucb1 (initial candidate: the last legal
move with a best score of zero, as in the source). -/
noncomputable def tree_policyAux (G : GameIface State Move)
    (visisted_states : State → Bool) (stats : State → Option UCTData)
    (rng : ℕ → ℕ) :
    ℕ → State → List State → ℕ → List ℤ →
      List ℤ × Except Err (TreePolicyResult State × ℕ)
  | 0, _, _, _, log => (log, Except.error Err.outOfFuel)
  | fuel + 1, current_node, path0, k, log =>
    let path := path0 ++ [current_node]
    let possible_moves := G.legal_moves current_node (G.player current_node)
    if possible_moves.length < 1 ∨ victory (G.win current_node) = true then
      (log, Except.ok (⟨path, current_node⟩, k))
    else if possible_moves.foldl
        (fun acc x => acc && visisted_states (G.place current_node x))
        true = false then
      match choose_random
          (possible_moves.filter
            fun x => !visisted_states (G.place current_node x)) (rng k) with
      | Except.error e => (log, Except.error e)
      | Except.ok random_choice =>
        let chosen_node := G.place current_node random_choice
        (log, Except.ok (⟨path ++ [chosen_node], chosen_node⟩, k + 1))
    else
      match possible_moves.getLast? with
      | none => (log, Except.error Err.emptyLast)
      | some lastMove =>
        match stats current_node with
        | none => (log, Except.error Err.missingStats)
        | some curData =>
          match selectUcb1 G stats current_node curData.num_plays
              possible_moves (lastMove, 0) log with
          | (log1, Except.error e) => (log1, Except.error e)
          | (log1, Except.ok best) =>
            tree_policyAux G visisted_states stats rng fuel
              (G.place current_node best.1) path k log1

/-- tree_policy: run the walk from the given state with an empty path. -/
noncomputable def tree_policy (G : GameIface State Move)
    (current_state : State) (visisted_states : State → Bool)
    (stats : State → Option UCTData) (rng : ℕ → ℕ) (fuel k : ℕ) :
    List ℤ × Except Err (TreePolicyResult State × ℕ) :=
  tree_policyAux G visisted_states stats rng fuel current_state [] k []

/-- One pass of the back_propogate loop: if the node has a statistics
entry, add the reward from the previous mover's perspective to wins, one
to num_plays and the win-or-tie indicator to win_tie; a node with no
entry is skipped. -/
noncomputable def back_propogateStep (G : GameIface State Move)
    (win_value : End) (st : State → Option UCTData) (node : State) :
    State → Option UCTData :=
  match st node with
  | some stat =>
    fun s =>
      if s = node then
        some ⟨stat.wins +
                get_result_value win_value (state_previous_player G node),
              stat.num_plays + 1,
              stat.win_tie +
                get_tie_or_win win_value (state_previous_player G node)⟩
      else st s
  | none => st

/-- back_propogate: apply the update pass to every node of the path in
order. -/
noncomputable def back_propogate (G : GameIface State Move)
    (win_value : End) (stats : State → Option UCTData)
    (path : List State) : State → Option UCTData :=
  path.foldl (back_propogateStep G win_value) stats

/-- optimal_move_most_visisted: most-played child, starting from the
canonical default move with a best count of zero and updating only on a
strictly greater num_plays. -/
def optimal_move_most_visisted (G : GameIface State Move)
    (possible_moves : List (Move × UCTData)) : Move :=
  (selLoop Prod.fst (fun p => p.2.num_plays) possible_moves
    (G.white_new_zero, 0)).1

/-- The construction of the (move, statistics) pairs for the root's legal
moves at the end of tree_search (line 154); each lookup is an unwrap. -/
def root_move_stats (G : GameIface State Move)
    (stats : State → Option UCTData) (root : State) :
    List Move → Except Err (List (Move × UCTData))
  | [] => Except.ok []
  | x :: rest =>
    match stats (G.place root x) with
    | none => Except.error Err.missingStats
    | some d =>
      match root_move_stats G stats root rest with
      | Except.error e => Except.error e
      | Except.ok l => Except.ok ((x, d) :: l)

/-- The time-bounded iteration loop of tree_search, modelled by an
iteration count: selection, expansion of a not-yet-visited expanded node
with fresh zero statistics, simulation from the expanded node with the
root's player as perspective, and backpropagation over the path. -/
noncomputable def tree_searchLoop (G : GameIface State Move) (root : State)
    (rng : ℕ → ℕ) (fuel : ℕ) :
    ℕ → (State → Bool) → (State → Option UCTData) → ℕ → List ℤ →
      List ℤ × Except Err ((State → Bool) × (State → Option UCTData) × ℕ)
  | 0, visited_states, statistics, k, log =>
    (log, Except.ok (visited_states, statistics, k))
  | n + 1, visited_states, statistics, k, log =>
    match tree_policyAux G visited_states statistics rng fuel root [] k log with
    | (log1, Except.error e) => (log1, Except.error e)
    | (log1, Except.ok (selected_state, k1)) =>
      let statistics1 :=
        if visited_states selected_state.expanded_node = false then
          fun s =>
            if s = selected_state.expanded_node then some (UCTData.new 0 0)
            else statistics s
        else statistics
      let visited1 :=
        if visited_states selected_state.expanded_node = false then
          fun s =>
            if s = selected_state.expanded_node then true
            else visited_states s
        else visited_states
      match run_simulation G fuel selected_state.expanded_node
          (G.player root) rng k1 with
      | Except.error e => (log1, Except.error e)
      | Except.ok (result, k2) =>
        tree_searchLoop G root rng fuel n visited1
          (back_propogate G result statistics1 selected_state.path) k2 log1

/-- tree_search with its full observable result: the initial store and
visited set hold exactly the root with zero statistics; after the loop,
the most visited of the root's children is selected, and the statistics
entry of the chosen child is looked up once more (the unwrap on line 156
feeding the printed diagnostic).  Returns the ucb1 log together with
either an error or the chosen move and the final store. -/
noncomputable def tree_searchFull (G : GameIface State Move) (root : State)
    (rng : ℕ → ℕ) (fuel n : ℕ) :
    List ℤ × Except Err (Move × (State → Option UCTData)) :=
  match tree_searchLoop G root rng fuel n
      (fun s => decide (s = root))
      (fun s => if s = root then some (UCTData.new 0 0) else none) 0 [] with
  | (log, Except.error e) => (log, Except.error e)
  | (log, Except.ok (_, statistics, _)) =>
    match root_move_stats G statistics root
        (G.legal_moves root (G.player root)) with
    | Except.error e => (log, Except.error e)
    | Except.ok possible_moves =>
      let best_move := optimal_move_most_visisted G possible_moves
      match statistics (G.place root best_move) with
      | none => (log, Except.error Err.missingStats)
      | some _ => (log, Except.ok (best_move, statistics))

/-- tree_search as the caller sees it: just the chosen move. -/
noncomputable def tree_search (G : GameIface State Move) (root : State)
    (rng : ℕ → ℕ) (fuel n : ℕ) : Except Err Move :=
  Except.map Prod.fst (tree_searchFull G root rng fuel n).2

/-- The game is alternating: applying any move changes the player to
move.  This is the spec's standing assumption on the collaborator (a
two-player alternating-move game). -/
def Alternating (G : GameIface State Move) : Prop :=
  ∀ s m, G.player (G.place s m) ≠ G.player s

/-- The working invariant of the search loop: the root is visited, the
visited set and the statistics store have the same members, and every
statistics entry has been played at least once. -/
def Inv1 (G : GameIface State Move) (root : State) (visited : State → Bool)
    (stats : State → Option UCTData) : Prop :=
  visited root = true ∧
  (∀ s, visited s = true ↔ (stats s).isSome = true) ∧
  (∀ s d, stats s = some d → 1 ≤ d.num_plays)

end Engine

section ConcreteGames

/-- The ucb1 score of the child reached by a move, read off the child's
own statistics entry with the parent's play count, exactly as the
fully-explored branch computes it. -/
noncomputable def childScore {State Move : Type} [DecidableEq State]
    (G : GameIface State Move) (stats : State → Option UCTData)
    (cur : State) (T : ℤ) (m : Move) : ℝ :=
  ucb1 ((stats (G.place cur m)).getD (UCTData.new 0 0)).wins
    (((stats (G.place cur m)).getD (UCTData.new 0 0)).num_plays : ℝ) (T : ℝ)

/-- The play count of the child reached by a move, as logged for each
ucb1 invocation. -/
def childPlays {State Move : Type} [DecidableEq State]
    (G : GameIface State Move) (stats : State → Option UCTData)
    (cur : State) (m : Move) : ℤ :=
  ((stats (G.place cur m)).getD (UCTData.new 0 0)).num_plays

/-- A trivial one-state game used to witness the backpropagation claim. -/
def bpGame : GameIface (Fin 2) (Fin 1) where
  player := fun _ => Color.White
  legal_moves := fun _ _ => []
  place := fun s _ => s
  win := fun _ => End.InProgress
  white_new_zero := 0

/-- A four-state chain game exhibiting the playout bug: only state 0 has
a legal move, each placement advances the chain 0, 1, 2, and state 2 is a
win for White. -/
def simGame : GameIface (Fin 4) (Fin 1) where
  player := fun s => if s.val % 2 = 0 then Color.White else Color.Black
  legal_moves := fun s _ => if s = 0 then [0] else []
  place := fun s _ => if s = 0 then 1 else if s = 1 then 2 else 3
  win := fun s => if s = 2 then End.Victory Color.White else End.InProgress
  white_new_zero := 0

/-- The concrete game refuting C2 as stated: from state 0 moves 0 and 1
lead to the already-visited states 1 and 2, and every child scores
exactly zero under ucb1. -/
def uctGame : GameIface (Fin 4) (Fin 2) where
  player := fun s => if s = 0 then Color.White else Color.Black
  legal_moves := fun s _ => if s = 0 then [0, 1] else []
  place := fun s m => if s = 0 then (if m = 0 then 1 else 2) else 3
  win := fun _ => End.InProgress
  white_new_zero := 0

/-- Visited set for the counterexample: both children of state 0. -/
def uctVisited : Fin 4 → Bool := fun s => s = 1 || s = 2

/-- Statistics for the counterexample: states 0, 1, 2 each with zero
reward and one play. -/
noncomputable def uctStats : Fin 4 → Option UCTData := fun s =>
  if s = 0 ∨ s = 1 ∨ s = 2 then some ⟨0, 1, 0⟩ else none

/-- A three-state chain game with a single legal move at the root: the
root 0 (White to move) has the single move to 1, which is an immediate
win for White; every other position has no legal moves.  The game is
alternating. -/
def oneMoveGame : GameIface (Fin 3) (Fin 1) where
  player := fun s => if s = 1 then Color.Black else Color.White
  legal_moves := fun s _ => if s = 0 then [0] else []
  place := fun s _ => if s = 0 then 1 else if s = 1 then 2 else 1
  win := fun s => if s = 1 then End.Victory Color.White else End.InProgress
  white_new_zero := 0

/-- The statistics store after one full iteration of tree_search on the
single-move game: the root lost from its mover's perspective, the winning
child won. -/
noncomputable def oneMoveStats : Fin 3 → Option UCTData := fun s =>
  if s = 0 then some ⟨0, 1, 0⟩ else if s = 1 then some ⟨1, 1, 1⟩ else none

/-- A game whose root 0 has no legal moves at all and whose move
application sends everything to state 1.  The canonical default move
applied at the root leads outside the statistics store. -/
def noMoveGame : GameIface (Fin 2) (Fin 1) where
  player := fun _ => Color.White
  legal_moves := fun _ _ => []
  place := fun _ _ => 1
  win := fun _ => End.InProgress
  white_new_zero := 0

end ConcreteGames

section SelLoopLemmas

variable {α γ β : Type _} [LinearOrder β] (key : α → γ) (score : α → β)

/-- A selection fold that is never strictly improved on returns its
initial candidate. -/
lemma selLoop_of_le :
    ∀ (l : List α) (b : γ × β), (∀ x ∈ l, score x ≤ b.2) →
      selLoop key score l b = b := by
  intro l
  induction l with
  | nil => intro b _; rfl
  | cons x rest ih =>
    intro b h
    have hx : ¬ score x > b.2 := not_lt.mpr (h x (List.mem_cons_self x rest))
    simp only [selLoop, if_neg hx]
    exact ih b fun y hy => h y (List.mem_cons_of_mem x hy)

/-- If some candidate strictly improves on the initial score, the
selection fold returns the first candidate attaining the maximal score:
its score beats the initial one, every earlier candidate scores strictly
less, and every candidate scores at most as much. -/
lemma selLoop_first_argmax :
    ∀ (l : List α) (b : γ × β), (∃ x ∈ l, b.2 < score x) →
      ∃ i, ∃ h : i < l.length,
        selLoop key score l b =
          (key (l.get ⟨i, h⟩), score (l.get ⟨i, h⟩)) ∧
        b.2 < score (l.get ⟨i, h⟩) ∧
        (∀ j, ∀ hj : j < l.length, j < i →
          score (l.get ⟨j, hj⟩) < score (l.get ⟨i, h⟩)) ∧
        (∀ j, ∀ hj : j < l.length,
          score (l.get ⟨j, hj⟩) ≤ score (l.get ⟨i, h⟩)) := by
  intro l
  induction l with
  | nil => intro b h; simp at h
  | cons x rest ih =>
    intro b hex
    by_cases hx : score x > b.2
    · by_cases hr : ∃ z ∈ rest, score x < score z
      · obtain ⟨i, hi, heq, hlt, hstrict, hmax⟩ := ih (key x, score x) hr
        refine ⟨i + 1, Nat.succ_lt_succ hi, ?_, ?_, ?_, ?_⟩
        · simp only [List.get_cons_succ]
          simpa only [selLoop, if_pos hx] using heq
        · simpa only [List.get_cons_succ] using lt_trans hx hlt
        · intro j hj hji
          cases j with
          | zero => simpa only [List.get_cons_zero, List.get_cons_succ] using hlt
          | succ j' =>
            simpa only [List.get_cons_succ] using
              hstrict j' (Nat.lt_of_succ_lt_succ hj) (Nat.lt_of_succ_lt_succ hji)
        · intro j hj
          cases j with
          | zero =>
            simpa only [List.get_cons_zero, List.get_cons_succ] using le_of_lt hlt
          | succ j' =>
            simpa only [List.get_cons_succ] using
              hmax j' (Nat.lt_of_succ_lt_succ hj)
      · push_neg at hr
        refine ⟨0, Nat.succ_pos _, ?_, hx, ?_, ?_⟩
        · simp only [List.get_cons_zero, selLoop, if_pos hx]
          exact selLoop_of_le key score rest (key x, score x) hr
        · intro j hj hji; exact absurd hji (Nat.not_lt_zero j)
        · intro j hj
          cases j with
          | zero => exact le_refl _
          | succ j' =>
            simpa only [List.get_cons_zero, List.get_cons_succ] using
              hr (rest.get ⟨j', Nat.lt_of_succ_lt_succ hj⟩) (rest.get_mem _ _)
    · have hxle : score x ≤ b.2 := not_lt.mp hx
      obtain ⟨z, hz, hbz⟩ := hex
      have hzrest : z ∈ rest := by
        rcases List.mem_cons.mp hz with h0 | h0
        · exact absurd (h0 ▸ hbz) (not_lt.mpr hxle)
        · exact h0
      obtain ⟨i, hi, heq, hlt, hstrict, hmax⟩ := ih b ⟨z, hzrest, hbz⟩
      refine ⟨i + 1, Nat.succ_lt_succ hi, ?_, ?_, ?_, ?_⟩
      · simp only [List.get_cons_succ]
        simpa only [selLoop, if_neg hx] using heq
      · simpa only [List.get_cons_succ] using hlt
      · intro j hj hji
        cases j with
        | zero =>
          simpa only [List.get_cons_zero, List.get_cons_succ] using
            lt_of_le_of_lt hxle hlt
        | succ j' =>
          simpa only [List.get_cons_succ] using
            hstrict j' (Nat.lt_of_succ_lt_succ hj) (Nat.lt_of_succ_lt_succ hji)
      · intro j hj
        cases j with
        | zero =>
          simpa only [List.get_cons_zero, List.get_cons_succ] using
            le_of_lt (lt_of_le_of_lt hxle hlt)
        | succ j' =>
          simpa only [List.get_cons_succ] using
            hmax j' (Nat.lt_of_succ_lt_succ hj)

/-- The selected key is the initial candidate or the key of a list
element. -/
lemma selLoop_fst_mem :
    ∀ (l : List α) (b : γ × β),
      (selLoop key score l b).1 = b.1 ∨ (selLoop key score l b).1 ∈ l.map key := by
  intro l
  induction l with
  | nil => intro b; exact Or.inl rfl
  | cons x rest ih =>
    intro b
    by_cases hx : score x > b.2
    · simp only [selLoop, if_pos hx]
      rcases ih (key x, score x) with h | h
      · exact Or.inr (h ▸ List.mem_cons_self _ _)
      · exact Or.inr (List.mem_cons_of_mem _ h)
    · simp only [selLoop, if_neg hx]
      rcases ih b with h | h
      · exact Or.inl h
      · exact Or.inr (List.mem_cons_of_mem _ h)

end SelLoopLemmas

section FoldLemmas

/-- The fully-explored fold of tree_policy is the all-quantifier over the
move list. -/
lemma foldl_and_eq_all {α : Type _} (p : α → Bool) :
    ∀ (l : List α) (b : Bool),
      l.foldl (fun acc x => acc && p x) b = (b && l.all p) := by
  intro l
  induction l with
  | nil => intro b; simp
  | cons x rest ih => intro b; simp [ih, Bool.and_assoc]

/-- choose_random on a non-empty list succeeds with an element of the
list. -/
lemma choose_random_ok {Move : Type} (l : List Move) (r : ℕ) (h : l ≠ []) :
    ∃ m, choose_random l r = Except.ok m ∧ m ∈ l := by
  have hlen : 0 < l.length := List.length_pos.mpr h
  have hlt : r % l.length < l.length := Nat.mod_lt r hlen
  refine ⟨l.get ⟨r % l.length, hlt⟩, ?_, l.get_mem _ _⟩
  simp only [choose_random, List.getElem?_eq_getElem hlt]
  rfl

/-- choose_random on the empty list is the modelled remainder-by-zero
panic. -/
lemma choose_random_nil {Move : Type} (r : ℕ) :
    choose_random ([] : List Move) r = Except.error Err.emptyChoose := rfl

end FoldLemmas

section BackPropLemmas

variable {State Move : Type} [DecidableEq State] (G : GameIface State Move)
  (wv : End)

/-- One backpropagation pass does not touch other states. -/
lemma back_propogateStep_frame (st : State → Option UCTData) (node s : State)
    (h : s ≠ node) : back_propogateStep G wv st node s = st s := by
  cases hm : st node with
  | none => simp only [back_propogateStep, hm]
  | some stat => simp only [back_propogateStep, hm, if_neg h]

/-- One backpropagation pass keeps missing entries missing. -/
lemma back_propogateStep_none (st : State → Option UCTData) (node s : State)
    (h : st s = none) : back_propogateStep G wv st node s = none := by
  by_cases hs : s = node
  · subst hs
    simp only [back_propogateStep, h]
  · rw [back_propogateStep_frame G wv st node s hs]
    exact h

/-- One backpropagation pass at the updated node rewrites the entry by
the reward, one play and the win-or-tie indicator. -/
lemma back_propogateStep_update (st : State → Option UCTData) (node : State)
    (stat : UCTData) (h : st node = some stat) :
    back_propogateStep G wv st node node =
      some ⟨stat.wins + get_result_value wv (state_previous_player G node),
            stat.num_plays + 1,
            stat.win_tie + get_tie_or_win wv (state_previous_player G node)⟩ := by
  simp [back_propogateStep, h]

/-- One backpropagation pass never decreases a play count and adds one at
the visited node. -/
lemma back_propogateStep_some (st : State → Option UCTData) (node s : State)
    (d : UCTData) (h : st s = some d) :
    ∃ d', back_propogateStep G wv st node s = some d' ∧
      d.num_plays ≤ d'.num_plays ∧
      (s = node → d.num_plays + 1 ≤ d'.num_plays) := by
  by_cases hs : s = node
  · subst hs
    refine ⟨⟨d.wins + get_result_value wv (state_previous_player G s),
            d.num_plays + 1,
            d.win_tie + get_tie_or_win wv (state_previous_player G s)⟩,
      back_propogateStep_update G wv st s d h,
      le_add_of_nonneg_right zero_le_one, fun _ => le_refl _⟩
  · refine ⟨d, ?_, le_refl _, fun hc => absurd hc hs⟩
    rw [back_propogateStep_frame G wv st node s hs]
    exact h

/-- Entries of states not on the path are unchanged by backpropagation. -/
lemma back_propogate_frame :
    ∀ (path : List State) (st : State → Option UCTData) (s : State),
      s ∉ path → back_propogate G wv st path s = st s := by
  intro path
  induction path with
  | nil => intro st s _; rfl
  | cons node rest ih =>
    intro st s hs
    have h1 : s ≠ node := fun h => hs (h ▸ List.mem_cons_self node rest)
    have h2 : s ∉ rest := fun h => hs (List.mem_cons_of_mem node h)
    have hcons : back_propogate G wv st (node :: rest) s =
        back_propogate G wv (back_propogateStep G wv st node) rest s := rfl
    rw [hcons, ih _ s h2, back_propogateStep_frame G wv st node s h1]

/-- Backpropagation keeps missing entries missing. -/
lemma back_propogate_none :
    ∀ (path : List State) (st : State → Option UCTData) (s : State),
      st s = none → back_propogate G wv st path s = none := by
  intro path
  induction path with
  | nil => intro st s h; exact h
  | cons node rest ih =>
    intro st s h
    have hcons : back_propogate G wv st (node :: rest) s =
        back_propogate G wv (back_propogateStep G wv st node) rest s := rfl
    rw [hcons]
    exact ih _ s (back_propogateStep_none G wv st node s h)

/-- Backpropagation never decreases a play count, and adds at least one
to every path member with an entry. -/
lemma back_propogate_np :
    ∀ (path : List State) (st : State → Option UCTData) (s : State)
      (d : UCTData), st s = some d →
      ∃ d', back_propogate G wv st path s = some d' ∧
        d.num_plays ≤ d'.num_plays ∧
        (s ∈ path → d.num_plays + 1 ≤ d'.num_plays) := by
  intro path
  induction path with
  | nil =>
    intro st s d h
    exact ⟨d, h, le_refl _, fun hc => absurd hc (List.not_mem_nil s)⟩
  | cons node rest ih =>
    intro st s d h
    obtain ⟨d1, hd1, hle1, hbump1⟩ := back_propogateStep_some G wv st node s d h
    obtain ⟨d', hd', hle2, hbump2⟩ := ih (back_propogateStep G wv st node) s d1 hd1
    have hcons : back_propogate G wv st (node :: rest) s =
        back_propogate G wv (back_propogateStep G wv st node) rest s := rfl
    refine ⟨d', by rw [hcons]; exact hd', le_trans hle1 hle2, ?_⟩
    intro hmem
    rcases List.mem_cons.mp hmem with h0 | h0
    · exact le_trans (hbump1 h0) hle2
    · have := hbump2 h0
      omega

/-- Backpropagation preserves which states have an entry. -/
lemma back_propogate_isSome (path : List State)
    (st : State → Option UCTData) (s : State) :
    (back_propogate G wv st path s).isSome = (st s).isSome := by
  cases h : st s with
  | none => rw [back_propogate_none G wv path st s h]
  | some d =>
    obtain ⟨d', hd', _, _⟩ := back_propogate_np G wv path st s d h
    rw [hd']
    rfl


/-- On a duplicate-free path, the entry of each path member receives
exactly one update. -/
lemma back_propogate_nodup_update :
    ∀ (path : List State), path.Nodup →
      ∀ (st : State → Option UCTData) (s : State), s ∈ path →
        ∀ d : UCTData, st s = some d →
          back_propogate G wv st path s =
            some ⟨d.wins + get_result_value wv (state_previous_player G s),
                  d.num_plays + 1,
                  d.win_tie + get_tie_or_win wv (state_previous_player G s)⟩ := by
  intro path
  induction path with
  | nil => intro _ st s hs; exact absurd hs (List.not_mem_nil s)
  | cons node rest ih =>
    intro hnd st s hs d h
    have hcons : back_propogate G wv st (node :: rest) s =
        back_propogate G wv (back_propogateStep G wv st node) rest s := rfl
    rw [hcons]
    rcases List.mem_cons.mp hs with h0 | h0
    · subst h0
      have hnotin : s ∉ rest := (List.nodup_cons.mp hnd).1
      rw [back_propogate_frame G wv rest _ s hnotin]
      exact back_propogateStep_update G wv st s d h
    · have hne : s ≠ node := by
        intro he
        subst he
        exact (List.nodup_cons.mp hnd).1 h0
      exact ih (List.nodup_cons.mp hnd).2 _ s h0 d
        (by rw [back_propogateStep_frame G wv st node s hne]; exact h)

end BackPropLemmas

section SelectLemmas

variable {State Move : Type} [DecidableEq State] (G : GameIface State Move)

/-- The inner ucb1 loop can only fail on a missing statistics entry. -/
lemma selectUcb1_error_eq (stats : State → Option UCTData) (cur : State)
    (T : ℤ) :
    ∀ (l : List Move) (b : Move × ℝ) (log log1 : List ℤ) (e : Err),
      selectUcb1 G stats cur T l b log = (log1, Except.error e) →
      e = Err.missingStats := by
  intro l
  induction l with
  | nil =>
    intro b log log1 e h
    simp only [selectUcb1, Prod.mk.injEq] at h
    exact absurd h.2 (by simp)
  | cons m rest ih =>
    intro b log log1 e h
    cases hm : stats (G.place cur m) with
    | none =>
      simp only [selectUcb1, hm, Prod.mk.injEq, Except.error.injEq] at h
      exact h.2.symm
    | some data =>
      simp only [selectUcb1, hm] at h
      exact ih _ _ _ _ h

/-- When every scored child has an entry, the inner ucb1 loop is the
selection fold over the ucb1 scores and logs each child's play count. -/
lemma selectUcb1_eq (stats : State → Option UCTData) (cur : State) (T : ℤ) :
    ∀ (l : List Move) (b : Move × ℝ) (log : List ℤ),
      (∀ m ∈ l, (stats (G.place cur m)).isSome = true) →
      selectUcb1 G stats cur T l b log =
        (log ++ l.map (fun m =>
           ((stats (G.place cur m)).getD (UCTData.new 0 0)).num_plays),
         Except.ok (selLoop id
           (fun m => ucb1 ((stats (G.place cur m)).getD (UCTData.new 0 0)).wins
             ((((stats (G.place cur m)).getD (UCTData.new 0 0)).num_plays : ℤ) : ℝ)
             ((T : ℤ) : ℝ)) l b)) := by
  intro l
  induction l with
  | nil => intro b log _; simp [selectUcb1, selLoop]
  | cons m rest ih =>
    intro b log hall
    have hm := hall m (List.mem_cons_self m rest)
    obtain ⟨data, hdata⟩ := Option.isSome_iff_exists.mp hm
    simp only [selectUcb1, hdata]
    rw [ih _ _ (fun x hx => hall x (List.mem_cons_of_mem m hx))]
    simp only [selLoop, List.map_cons, hdata, Option.getD_some, id_eq,
      List.append_assoc, List.singleton_append]

end SelectLemmas

section ClaimC8C9

/-- C8: get_result_value returns 1 on a victory for the perspective, one
half on a tie and 0 otherwise (in-progress included), and always lands in
{0, 0.5, 1}; get_tie_or_win lands in {0, 1}; and a reward of 1 or 0.5
forces a win-or-tie indicator of 1. -/
theorem C8_reward_model (e : End) (c c' : Color) :
    get_result_value (End.Victory c) c = 1 ∧
    (c' ≠ c → get_result_value (End.Victory c') c = 0) ∧
    get_result_value End.Tie c = 0.5 ∧
    get_result_value End.InProgress c = 0 ∧
    (get_result_value e c = 0 ∨ get_result_value e c = 0.5 ∨
      get_result_value e c = 1) ∧
    (get_tie_or_win e c = 0 ∨ get_tie_or_win e c = 1) ∧
    (get_result_value e c = 1 → get_tie_or_win e c = 1) ∧
    (get_result_value e c = 0.5 → get_tie_or_win e c = 1) := by
  refine ⟨by simp [get_result_value], fun h => by simp [get_result_value, h],
    rfl, rfl, ?_, ?_, ?_, ?_⟩
  · cases e with
    | InProgress => exact Or.inl rfl
    | Tie => exact Or.inr (Or.inl rfl)
    | Victory c0 =>
      by_cases h : c0 = c
      · exact Or.inr (Or.inr (by simp [get_result_value, h]))
      · exact Or.inl (by simp [get_result_value, h])
  · cases e with
    | InProgress => exact Or.inl rfl
    | Tie => exact Or.inr rfl
    | Victory c0 =>
      by_cases h : c0 = c
      · exact Or.inr (by simp [get_tie_or_win, h])
      · exact Or.inl (by simp [get_tie_or_win, h])
  · cases e with
    | InProgress => intro h; exact absurd h (by norm_num [get_result_value])
    | Tie => intro h; exact absurd h (by norm_num [get_result_value])
    | Victory c0 =>
      by_cases h : c0 = c
      · intro _; simp [get_tie_or_win, h]
      · intro hr; exact absurd hr (by norm_num [get_result_value, h])
  · cases e with
    | InProgress => intro h; exact absurd h (by norm_num [get_result_value])
    | Tie => intro _; rfl
    | Victory c0 =>
      by_cases h : c0 = c
      · intro hr; exact absurd hr (by norm_num [get_result_value, h])
      · intro hr; exact absurd hr (by norm_num [get_result_value, h])

/-- Witness for C8 at the tie outcome and a wrong-perspective victory. -/
theorem C8_reward_model_witness :
    Color.Black ≠ Color.White ∧
    get_result_value (End.Victory Color.Black) Color.White = 0 ∧
    (get_result_value End.Tie Color.White = 0.5 →
      get_tie_or_win End.Tie Color.White = 1) := by
  refine ⟨by simp, ?_, ?_⟩
  · exact (C8_reward_model End.Tie Color.White Color.Black).2.1 (by simp)
  · exact (C8_reward_model End.Tie Color.White Color.Black).2.2.2.2.2.2.2

/-- C9: for positive plays, ucb1 computes exactly the spec formula
sqrt(2 * ln(parentTotalPlays) / plays) + wins / plays. -/
theorem C9_ucb1_formula (w n T : ℝ) (h : 0 < n) :
    ucb1 w n T = Real.sqrt (2 * Real.log T / n) + w / n := rfl

/-- Witness for C9 at wins 0, plays 1, total 1. -/
theorem C9_ucb1_formula_witness :
    (0 : ℝ) < 1 ∧
    ucb1 0 1 1 = Real.sqrt (2 * Real.log 1 / 1) + 0 / 1 :=
  ⟨by norm_num, C9_ucb1_formula 0 1 1 (by norm_num)⟩

end ClaimC8C9

section ClaimC7

/-- C7: backpropagation updates the statistics entry of each member of a
duplicate-free path by exactly one reward (from the previous mover's
perspective), one play, and one win-or-tie indicator; a path member with
no entry stays absent (silent skip), entries of states not on the path
are unchanged, and the previous mover is the opponent of the state's
player to move. -/
theorem C7_back_propogate_updates {State Move : Type} [DecidableEq State]
    (G : GameIface State Move) (wv : End) (stats : State → Option UCTData)
    (path : List State) (s : State) :
    (s ∉ path → back_propogate G wv stats path s = stats s) ∧
    (stats s = none → back_propogate G wv stats path s = none) ∧
    (path.Nodup → s ∈ path → ∀ d : UCTData, stats s = some d →
      back_propogate G wv stats path s =
        some ⟨d.wins + get_result_value wv (state_previous_player G s),
              d.num_plays + 1,
              d.win_tie + get_tie_or_win wv (state_previous_player G s)⟩) ∧
    (G.player s = Color.White → state_previous_player G s = Color.Black) ∧
    (G.player s = Color.Black → state_previous_player G s = Color.White) := by
  refine ⟨fun h => back_propogate_frame G wv path stats s h,
    fun h => back_propogate_none G wv path stats s h,
    fun hnd hmem d hd => back_propogate_nodup_update G wv path hnd stats s hmem d hd,
    ?_, ?_⟩
  · intro h; simp [state_previous_player, h]
  · intro h; simp [state_previous_player, h]


/-- Witness for C7: a singleton path updates its only entry once. -/
theorem C7_back_propogate_updates_witness :
    ([(0 : Fin 2)] : List (Fin 2)).Nodup ∧ (0 : Fin 2) ∈ [(0 : Fin 2)] ∧
    (fun s : Fin 2 => if s = 0 then some (UCTData.new 0 0) else none) 0 =
      some (UCTData.new 0 0) ∧
    back_propogate bpGame End.Tie
      (fun s : Fin 2 => if s = 0 then some (UCTData.new 0 0) else none)
      [(0 : Fin 2)] 0 =
      some ⟨(UCTData.new 0 0).wins +
              get_result_value End.Tie (state_previous_player bpGame 0),
            (UCTData.new 0 0).num_plays + 1,
            (UCTData.new 0 0).win_tie +
              get_tie_or_win End.Tie (state_previous_player bpGame 0)⟩ := by
  refine ⟨by decide, by decide, by simp, ?_⟩
  exact (C7_back_propogate_updates bpGame End.Tie _ [(0 : Fin 2)] 0).2.2.1
    (by decide) (by decide) _ (by simp)

end ClaimC7

section ClaimC10

/-- C10: choose_random on a non-empty list returns a member of the list;
on the empty list it is the modelled remainder-by-zero panic; and neither
the playout loop nor the tree policy ever reaches that panic, for any
inputs whatsoever. -/
theorem C10_choose_random_safety {State Move : Type} [DecidableEq State] :
    (∀ (l : List Move) (r : ℕ), l ≠ [] →
      ∃ m, choose_random l r = Except.ok m ∧ m ∈ l) ∧
    (∀ r : ℕ, choose_random ([] : List Move) r = Except.error Err.emptyChoose) ∧
    (∀ (G : GameIface State Move) (state : State) (rng : ℕ → ℕ) (fuel : ℕ)
        (cur : State) (k : ℕ),
      run_simulationAux G state rng fuel cur k ≠
        Except.error Err.emptyChoose) ∧
    (∀ (G : GameIface State Move) (visited : State → Bool)
        (stats : State → Option UCTData) (rng : ℕ → ℕ) (fuel : ℕ)
        (cur : State) (path0 : List State) (k : ℕ) (log : List ℤ),
      (tree_policyAux G visited stats rng fuel cur path0 k log).2 ≠
        Except.error Err.emptyChoose) := by
  refine ⟨fun l r h => choose_random_ok l r h, fun r => rfl, ?_, ?_⟩
  · intro G state rng fuel
    induction fuel with
    | zero => intro cur k; simp [run_simulationAux]
    | succ n ih =>
      intro cur k
      by_cases hv : victory (G.win cur) = true
      · simp [run_simulationAux, hv]
      · by_cases hlen : (G.legal_moves state (G.player cur)).length < 1
        · simp [run_simulationAux, hv, hlen]
        · have hne : G.legal_moves state (G.player cur) ≠ [] := by
            intro hnil
            rw [hnil] at hlen
            simp at hlen
          obtain ⟨m, hok, _⟩ := choose_random_ok _ (rng k) hne
          simp only [run_simulationAux, if_neg hv, if_neg hlen, hok]
          exact ih _ _
  · intro G visited stats rng fuel
    induction fuel with
    | zero => intro cur path0 k log; simp [tree_policyAux]
    | succ n ih =>
      intro cur path0 k log
      by_cases h1 : (G.legal_moves cur (G.player cur)).length < 1 ∨
          victory (G.win cur) = true
      · simp [tree_policyAux, if_pos h1]
      · by_cases h2 : (G.legal_moves cur (G.player cur)).foldl
            (fun acc x => acc && visited (G.place cur x)) true = false
        · have hex : ∃ x ∈ G.legal_moves cur (G.player cur),
              visited (G.place cur x) = false := by
            rw [foldl_and_eq_all] at h2
            simp only [Bool.true_and] at h2
            by_contra hc
            push_neg at hc
            have : (G.legal_moves cur (G.player cur)).all
                (fun x => visited (G.place cur x)) = true :=
              List.all_eq_true.mpr fun x hx =>
                Bool.ne_false_iff.mp (hc x hx)
            rw [this] at h2
            cases h2
          obtain ⟨x, hxmem, hxf⟩ := hex
          have hfil : x ∈ (G.legal_moves cur (G.player cur)).filter
              (fun x => !visited (G.place cur x)) :=
            List.mem_filter.mpr ⟨hxmem, by rw [hxf]; rfl⟩
          have hne : (G.legal_moves cur (G.player cur)).filter
              (fun x => !visited (G.place cur x)) ≠ [] :=
            List.ne_nil_of_mem hfil
          obtain ⟨m, hok, _⟩ := choose_random_ok _ (rng k) hne
          simp only [tree_policyAux, if_neg h1, if_pos h2, hok]
          simp
        · simp only [tree_policyAux, if_neg h1, if_neg h2]
          cases hlast : (G.legal_moves cur (G.player cur)).getLast? with
          | none => simp
          | some lastMove =>
            cases hstats : stats cur with
            | none => simp
            | some curData =>
              rcases hsel : selectUcb1 G stats cur curData.num_plays
                  (G.legal_moves cur (G.player cur)) (lastMove, 0) log with
                ⟨log1, r⟩
              cases r with
              | error e =>
                have he : e = Err.missingStats :=
                  selectUcb1_error_eq G stats cur curData.num_plays _ _ _ _ _ hsel
                simp [hsel, he]
              | ok best =>
                simp only [hsel]
                exact ih _ _ _ _

/-- Witness for C10 on a concrete two-element list. -/
theorem C10_choose_random_safety_witness :
    ([0, 1] : List (Fin 2)) ≠ [] ∧
    ∃ m, choose_random ([0, 1] : List (Fin 2)) 5 = Except.ok m ∧
      m ∈ ([0, 1] : List (Fin 2)) := by
  refine ⟨by decide, ?_⟩
  exact (@C10_choose_random_safety (Fin 2) (Fin 2) _).1 [0, 1] 5 (by decide)

end ClaimC10

section ClaimC1


/-- C1 (code bug): the playout loop reads legal moves from the original
state argument rather than the current position.  Started at state 0 it
still applies a move at state 1, which has no legal moves at all, and so
reaches the Victory-at-2 outcome instead of stopping in-progress at 1. -/
theorem C1_run_simulation_stale_moves :
    run_simulation simGame 10 0 Color.White (fun _ => 0) 0 =
      Except.ok (End.Victory Color.White, 2) ∧
    simGame.legal_moves 1 (simGame.player 1) = [] ∧
    simGame.place 0 0 = 1 ∧
    simGame.win 1 = End.InProgress := by
  refine ⟨rfl, rfl, rfl, rfl⟩

end ClaimC1

section ClaimC2



/-- C2 (amended): at a fully-explored position the walk descends into the
child chosen by the strict-improvement loop over the ucb1 scores, seeded
with the last legal move at a best score of zero.  When some child scores
strictly above zero this is the first move attaining the strictly
greatest score; when no child scores above zero no update ever fires and
the descent takes the last legal move instead of the first. -/
theorem C2_fully_explored_selection {State Move : Type} [DecidableEq State]
    (G : GameIface State Move) (visited : State → Bool)
    (stats : State → Option UCTData) (rng : ℕ → ℕ) (fuel : ℕ)
    (cur : State) (path0 : List State) (k : ℕ) (log : List ℤ)
    (curData : UCTData)
    (hterm : ¬((G.legal_moves cur (G.player cur)).length < 1 ∨
      victory (G.win cur) = true))
    (hfull : (G.legal_moves cur (G.player cur)).foldl
      (fun acc x => acc && visited (G.place cur x)) true = true)
    (hcur : stats cur = some curData)
    (hall : ∀ m ∈ G.legal_moves cur (G.player cur),
      (stats (G.place cur m)).isSome = true)
    (hne : G.legal_moves cur (G.player cur) ≠ []) :
    ∃ best : Move × ℝ,
      selectUcb1 G stats cur curData.num_plays
          (G.legal_moves cur (G.player cur))
          ((G.legal_moves cur (G.player cur)).getLast hne, 0) log =
        (log ++ (G.legal_moves cur (G.player cur)).map
           (childPlays G stats cur), Except.ok best) ∧
      tree_policyAux G visited stats rng (fuel + 1) cur path0 k log =
        tree_policyAux G visited stats rng fuel (G.place cur best.1)
          (path0 ++ [cur]) k
          (log ++ (G.legal_moves cur (G.player cur)).map
            (childPlays G stats cur)) ∧
      ((∃ m ∈ G.legal_moves cur (G.player cur),
          0 < childScore G stats cur curData.num_plays m) →
        ∃ i, ∃ h : i < (G.legal_moves cur (G.player cur)).length,
          best.1 = (G.legal_moves cur (G.player cur)).get ⟨i, h⟩ ∧
          (∀ j, ∀ hj : j < (G.legal_moves cur (G.player cur)).length, j < i →
            childScore G stats cur curData.num_plays
                ((G.legal_moves cur (G.player cur)).get ⟨j, hj⟩) <
              childScore G stats cur curData.num_plays
                ((G.legal_moves cur (G.player cur)).get ⟨i, h⟩)) ∧
          (∀ j, ∀ hj : j < (G.legal_moves cur (G.player cur)).length,
            childScore G stats cur curData.num_plays
                ((G.legal_moves cur (G.player cur)).get ⟨j, hj⟩) ≤
              childScore G stats cur curData.num_plays
                ((G.legal_moves cur (G.player cur)).get ⟨i, h⟩))) ∧
      ((∀ m ∈ G.legal_moves cur (G.player cur),
          childScore G stats cur curData.num_plays m ≤ 0) →
        best.1 = (G.legal_moves cur (G.player cur)).getLast hne) := by
  have hsel := selectUcb1_eq G stats cur curData.num_plays
    (G.legal_moves cur (G.player cur))
    ((G.legal_moves cur (G.player cur)).getLast hne, 0) log hall
  refine ⟨selLoop id (childScore G stats cur curData.num_plays)
    (G.legal_moves cur (G.player cur))
    ((G.legal_moves cur (G.player cur)).getLast hne, 0), hsel, ?_, ?_, ?_⟩
  · have hfull' : ¬ (G.legal_moves cur (G.player cur)).foldl
        (fun acc x => acc && visited (G.place cur x)) true = false := by
      rw [hfull]
      simp
    have hlast : (G.legal_moves cur (G.player cur)).getLast? =
        some ((G.legal_moves cur (G.player cur)).getLast hne) :=
      List.getLast?_eq_getLast _ hne
    simp only [tree_policyAux, if_neg hterm, if_neg hfull', hlast, hcur, hsel]
    rfl
  · intro hex
    obtain ⟨i, hi, heq, _, hstrict, hmax⟩ :=
      selLoop_first_argmax id (childScore G stats cur curData.num_plays)
        (G.legal_moves cur (G.player cur))
        ((G.legal_moves cur (G.player cur)).getLast hne, 0) hex
    refine ⟨i, hi, ?_, hstrict, hmax⟩
    rw [heq]
    rfl
  · intro hle
    rw [selLoop_of_le id (childScore G stats cur curData.num_plays)
      (G.legal_moves cur (G.player cur))
      ((G.legal_moves cur (G.player cur)).getLast hne, 0) hle]




/-- The ucb1 value showing up in the counterexample is exactly zero. -/
lemma ucb1_zero_one_one : ucb1 0 1 1 = 0 := by
  simp [ucb1]

/-- C2 (counterexample): with both children visited, carrying identical
one-play zero-reward statistics (hence equal ucb1 scores), the walk
descends into state 2 via the second move, not via the first maximal
move as the claim requires. -/
theorem C2_counterexample :
    uctGame.legal_moves 0 (uctGame.player 0) = [0, 1] ∧
    uctVisited (uctGame.place 0 0) = true ∧
    uctVisited (uctGame.place 0 1) = true ∧
    uctStats (uctGame.place 0 0) = some ⟨0, 1, 0⟩ ∧
    uctStats (uctGame.place 0 1) = some ⟨0, 1, 0⟩ ∧
    childScore uctGame uctStats 0 1 0 = childScore uctGame uctStats 0 1 1 ∧
    tree_policyAux uctGame uctVisited uctStats (fun _ => 0) 2 0 [] 0 [] =
      ([1, 1], Except.ok (⟨[0, 2], 2⟩, 0)) ∧
    uctGame.place 0 0 = 1 ∧
    uctGame.place 0 1 = 2 ∧
    (2 : Fin 4) ≠ 1 := by
  refine ⟨rfl, rfl, rfl, rfl, rfl, rfl, ?_, rfl, rfl, by decide⟩
  have h20 : ¬ ((2 : Fin 4) = 0) := by decide
  norm_num [tree_policyAux, selectUcb1, selLoop, uctGame, uctStats, uctVisited,
    choose_random, victory, ucb1_zero_one_one, h20]



/-- Witness for the amended C2 at the concrete two-child game: both
hypotheses of the fully-explored branch hold, no child scores above zero,
and the selection descends via the last legal move. -/
theorem C2_fully_explored_selection_witness :
    (¬((uctGame.legal_moves 0 (uctGame.player 0)).length < 1 ∨
        victory (uctGame.win 0) = true)) ∧
    ((uctGame.legal_moves 0 (uctGame.player 0)).foldl
      (fun acc x => acc && uctVisited (uctGame.place 0 x)) true = true) ∧
    uctStats (0 : Fin 4) = some ⟨0, 1, 0⟩ ∧
    (∀ m ∈ uctGame.legal_moves 0 (uctGame.player 0),
      (uctStats (uctGame.place 0 m)).isSome = true) ∧
    uctGame.legal_moves 0 (uctGame.player 0) ≠ [] ∧
    (∃ best : Fin 2 × ℝ,
      selectUcb1 uctGame uctStats 0 (⟨0, 1, 0⟩ : UCTData).num_plays
          (uctGame.legal_moves 0 (uctGame.player 0))
          ((uctGame.legal_moves 0 (uctGame.player 0)).getLast (by decide), 0)
          [] =
        ([] ++ (uctGame.legal_moves 0 (uctGame.player 0)).map
           (childPlays uctGame uctStats 0), Except.ok best) ∧
      tree_policyAux uctGame uctVisited uctStats (fun _ => 0) (1 + 1) 0 [] 0 [] =
        tree_policyAux uctGame uctVisited uctStats (fun _ => 0) 1
          (uctGame.place 0 best.1) ([] ++ [0]) 0
          ([] ++ (uctGame.legal_moves 0 (uctGame.player 0)).map
            (childPlays uctGame uctStats 0)) ∧
      ((∃ m ∈ uctGame.legal_moves 0 (uctGame.player 0),
          0 < childScore uctGame uctStats 0 (⟨0, 1, 0⟩ : UCTData).num_plays m) →
        ∃ i, ∃ h : i < (uctGame.legal_moves 0 (uctGame.player 0)).length,
          best.1 = (uctGame.legal_moves 0 (uctGame.player 0)).get ⟨i, h⟩ ∧
          (∀ j, ∀ hj : j < (uctGame.legal_moves 0 (uctGame.player 0)).length,
            j < i →
            childScore uctGame uctStats 0 (⟨0, 1, 0⟩ : UCTData).num_plays
                ((uctGame.legal_moves 0 (uctGame.player 0)).get ⟨j, hj⟩) <
              childScore uctGame uctStats 0 (⟨0, 1, 0⟩ : UCTData).num_plays
                ((uctGame.legal_moves 0 (uctGame.player 0)).get ⟨i, h⟩)) ∧
          (∀ j, ∀ hj : j < (uctGame.legal_moves 0 (uctGame.player 0)).length,
            childScore uctGame uctStats 0 (⟨0, 1, 0⟩ : UCTData).num_plays
                ((uctGame.legal_moves 0 (uctGame.player 0)).get ⟨j, hj⟩) ≤
              childScore uctGame uctStats 0 (⟨0, 1, 0⟩ : UCTData).num_plays
                ((uctGame.legal_moves 0 (uctGame.player 0)).get ⟨i, h⟩))) ∧
      ((∀ m ∈ uctGame.legal_moves 0 (uctGame.player 0),
          childScore uctGame uctStats 0 (⟨0, 1, 0⟩ : UCTData).num_plays m ≤ 0) →
        best.1 = (uctGame.legal_moves 0 (uctGame.player 0)).getLast
          (by decide))) := by
  refine ⟨by decide, by decide, rfl, ?_, by decide, ?_⟩
  · intro m hm
    fin_cases hm <;> rfl
  · exact C2_fully_explored_selection uctGame uctVisited uctStats (fun _ => 0) 1
      0 [] 0 [] ⟨0, 1, 0⟩ (by decide) (by decide) rfl
      (by intro m hm; fin_cases hm <;> rfl) (by decide)

end ClaimC2

section InvariantLemmas

variable {State Move : Type} [DecidableEq State] (G : GameIface State Move)

/-- Backpropagation establishes the play-count invariant provided every
zero-play entry lies on the path being propagated. -/
lemma Inv1_back_propogate (root : State) (visited : State → Bool)
    (stats : State → Option UCTData) (path : List State) (result : End)
    (h1 : visited root = true)
    (h2 : ∀ s, visited s = true ↔ (stats s).isSome = true)
    (h3 : ∀ s d, stats s = some d →
      1 ≤ d.num_plays ∨ (s ∈ path ∧ 0 ≤ d.num_plays)) :
    Inv1 G root visited (back_propogate G result stats path) := by
  refine ⟨h1, ?_, ?_⟩
  · intro s
    rw [back_propogate_isSome G result path stats s]
    exact h2 s
  · intro s d' hd'
    cases hst : stats s with
    | none =>
      rw [back_propogate_none G result path stats s hst] at hd'
      cases hd'
    | some d0 =>
      obtain ⟨d'', hd'', hle, hbump⟩ :=
        back_propogate_np G result path stats s d0 hst
      rw [hd''] at hd'
      injection hd' with he
      subst he
      rcases h3 s d0 hst with h | ⟨hmem, hnn⟩
      · omega
      · have := hbump hmem
        omega

/-- Walk lemma: starting from a visited node under the store invariant,
the tree-policy walk logs only play counts of at least one, and on
success the expanded node lies on the returned path, which extends the
accumulated path by the current node. -/
lemma tree_policyAux_walk (visited : State → Bool)
    (stats : State → Option UCTData) (rng : ℕ → ℕ)
    (hiff : ∀ s, visited s = true ↔ (stats s).isSome = true)
    (hnp : ∀ s d, stats s = some d → 1 ≤ d.num_plays) :
    ∀ (fuel : ℕ) (cur : State) (path0 : List State) (k : ℕ) (log : List ℤ),
      visited cur = true → (∀ x ∈ log, 1 ≤ x) →
      (∀ log1 e, tree_policyAux G visited stats rng fuel cur path0 k log =
          (log1, Except.error e) → (∀ x ∈ log1, 1 ≤ x)) ∧
      (∀ log1 res k1,
        tree_policyAux G visited stats rng fuel cur path0 k log =
          (log1, Except.ok (res, k1)) →
        (∀ x ∈ log1, 1 ≤ x) ∧ res.expanded_node ∈ res.path ∧
        ∃ rest, res.path = path0 ++ cur :: rest) := by
  intro fuel
  induction fuel with
  | zero =>
    intro cur path0 k log hcur hlog
    constructor
    · intro log1 e h
      simp only [tree_policyAux, Prod.mk.injEq] at h
      exact h.1 ▸ hlog
    · intro log1 res k1 h
      simp only [tree_policyAux, Prod.mk.injEq] at h
      exact absurd h.2 (by simp)
  | succ fuel ih =>
    intro cur path0 k log hcur hlog
    by_cases h1 : (G.legal_moves cur (G.player cur)).length < 1 ∨
        victory (G.win cur) = true
    · constructor
      · intro log1 e h
        simp only [tree_policyAux, if_pos h1, Prod.mk.injEq] at h
        exact absurd h.2 (by simp)
      · intro log1 res k1 h
        simp only [tree_policyAux, if_pos h1, Prod.mk.injEq,
          Except.ok.injEq] at h
        obtain ⟨hl, hr, -⟩ := h
        refine ⟨hl ▸ hlog, ?_, ?_⟩
        · rw [← hr]
          simp
        · refine ⟨[], ?_⟩
          rw [← hr]
    · by_cases h2 : (G.legal_moves cur (G.player cur)).foldl
          (fun acc x => acc && visited (G.place cur x)) true = false
      · have hex : ∃ x ∈ G.legal_moves cur (G.player cur),
            visited (G.place cur x) = false := by
          rw [foldl_and_eq_all] at h2
          simp only [Bool.true_and] at h2
          by_contra hc
          push_neg at hc
          have : (G.legal_moves cur (G.player cur)).all
              (fun x => visited (G.place cur x)) = true :=
            List.all_eq_true.mpr fun x hx => Bool.ne_false_iff.mp (hc x hx)
          rw [this] at h2
          cases h2
        obtain ⟨x, hxmem, hxf⟩ := hex
        have hne : (G.legal_moves cur (G.player cur)).filter
            (fun x => !visited (G.place cur x)) ≠ [] :=
          List.ne_nil_of_mem
            (List.mem_filter.mpr ⟨hxmem, by rw [hxf]; rfl⟩)
        obtain ⟨mr, hok, -⟩ := choose_random_ok _ (rng k) hne
        constructor
        · intro log1 e h
          simp only [tree_policyAux, if_neg h1, if_pos h2, hok,
            Prod.mk.injEq] at h
          exact absurd h.2 (by simp)
        · intro log1 res k1 h
          simp only [tree_policyAux, if_neg h1, if_pos h2, hok,
            Prod.mk.injEq, Except.ok.injEq] at h
          obtain ⟨hl, hr, -⟩ := h
          refine ⟨hl ▸ hlog, ?_, ?_⟩
          · rw [← hr]
            simp
          · refine ⟨[G.place cur mr], ?_⟩
            rw [← hr]
            simp
      · have hpm_ne : G.legal_moves cur (G.player cur) ≠ [] := by
          intro hnil
          exact h1 (Or.inl (by rw [hnil]; simp))
        have hlast : (G.legal_moves cur (G.player cur)).getLast? =
            some ((G.legal_moves cur (G.player cur)).getLast hpm_ne) :=
          List.getLast?_eq_getLast _ hpm_ne
        obtain ⟨curData, hcurD⟩ :=
          Option.isSome_iff_exists.mp ((hiff cur).mp hcur)
        have hfull : (G.legal_moves cur (G.player cur)).foldl
            (fun acc x => acc && visited (G.place cur x)) true = true := by
          cases hb : (G.legal_moves cur (G.player cur)).foldl
              (fun acc x => acc && visited (G.place cur x)) true
          · exact absurd hb h2
          · rfl
        have hallv : ∀ m ∈ G.legal_moves cur (G.player cur),
            visited (G.place cur m) = true := by
          rw [foldl_and_eq_all] at hfull
          simp only [Bool.true_and] at hfull
          exact fun m hm => List.all_eq_true.mp hfull m hm
        have hallS : ∀ m ∈ G.legal_moves cur (G.player cur),
            (stats (G.place cur m)).isSome = true :=
          fun m hm => (hiff _).mp (hallv m hm)
        have hsel := selectUcb1_eq G stats cur curData.num_plays
          (G.legal_moves cur (G.player cur))
          ((G.legal_moves cur (G.player cur)).getLast hpm_ne, 0) log hallS
        have hbest_mem : ∀ sc : Move → ℝ,
            (selLoop id sc (G.legal_moves cur (G.player cur))
              ((G.legal_moves cur (G.player cur)).getLast hpm_ne, 0)).1 ∈
              G.legal_moves cur (G.player cur) := by
          intro sc
          rcases selLoop_fst_mem id sc (G.legal_moves cur (G.player cur))
              ((G.legal_moves cur (G.player cur)).getLast hpm_ne, 0) with h | h
          · rw [h]
            exact List.getLast_mem hpm_ne
          · simpa using h
        have hlog2 : ∀ x ∈ log ++ (G.legal_moves cur (G.player cur)).map
            (fun m => ((stats (G.place cur m)).getD (UCTData.new 0 0)).num_plays),
            (1 : ℤ) ≤ x := by
          intro x hx
          rcases List.mem_append.mp hx with h | h
          · exact hlog x h
          · obtain ⟨m, hm, hxval⟩ := List.mem_map.mp h
            obtain ⟨d, hd⟩ := Option.isSome_iff_exists.mp (hallS m hm)
            rw [← hxval, hd]
            exact hnp _ d hd
        constructor
        · intro log1 e h
          simp only [tree_policyAux, if_neg h1, if_neg h2, hlast, hcurD,
            hsel] at h
          exact (ih _ (path0 ++ [cur]) k _
            (hallv _ (hbest_mem _)) hlog2).1 log1 e h
        · intro log1 res k1 h
          simp only [tree_policyAux, if_neg h1, if_neg h2, hlast, hcurD,
            hsel] at h
          obtain ⟨ha, hb, hc⟩ := (ih _ (path0 ++ [cur]) k _
            (hallv _ (hbest_mem _)) hlog2).2 log1 res k1 h
          refine ⟨ha, hb, ?_⟩
          obtain ⟨rest, hrest⟩ := hc
          rw [hrest, List.append_assoc]
          exact ⟨_, rfl⟩

/-- One search iteration preserves the invariant: the expansion insert
only adds a zero-play entry at the expanded node, which lies on the path
that backpropagation immediately bumps. -/
lemma iteration_preserves (root : State) (visited : State → Bool)
    (stats : State → Option UCTData) (res : TreePolicyResult State)
    (result : End) (hInv : Inv1 G root visited stats)
    (hexp : res.expanded_node ∈ res.path) :
    Inv1 G root
      (if visited res.expanded_node = false then
        fun s => if s = res.expanded_node then true else visited s
       else visited)
      (back_propogate G result
        (if visited res.expanded_node = false then
          fun s => if s = res.expanded_node then some (UCTData.new 0 0)
          else stats s
         else stats) res.path) := by
  obtain ⟨hroot, hiff, hnp⟩ := hInv
  by_cases hv : visited res.expanded_node = false
  · rw [if_pos hv, if_pos hv]
    apply Inv1_back_propogate
    · by_cases hre : root = res.expanded_node
      · simp [hre]
      · simp only [if_neg hre]
        exact hroot
    · intro s
      by_cases hse : s = res.expanded_node
      · simp [hse]
      · simp only [if_neg hse]
        exact hiff s
    · intro s d hd
      by_cases hse : s = res.expanded_node
      · rw [if_pos hse] at hd
        injection hd with he
        refine Or.inr ⟨hse ▸ hexp, ?_⟩
        rw [← he]
        exact le_refl _
      · rw [if_neg hse] at hd
        exact Or.inl (hnp s d hd)
  · rw [if_neg hv, if_neg hv]
    exact Inv1_back_propogate G root visited stats res.path result hroot hiff
      (fun s d hd => Or.inl (hnp s d hd))

/-- The search loop preserves the invariant and only ever logs play
counts of at least one. -/
lemma tree_searchLoop_inv (root : State) (rng : ℕ → ℕ) (fuel : ℕ) :
    ∀ (n : ℕ) (visited : State → Bool) (stats : State → Option UCTData)
      (k : ℕ) (log : List ℤ),
      Inv1 G root visited stats → (∀ x ∈ log, 1 ≤ x) →
      (∀ log1 e, tree_searchLoop G root rng fuel n visited stats k log =
        (log1, Except.error e) → ∀ x ∈ log1, 1 ≤ x) ∧
      (∀ log1 v1 st1 k1,
        tree_searchLoop G root rng fuel n visited stats k log =
          (log1, Except.ok (v1, st1, k1)) →
        (∀ x ∈ log1, 1 ≤ x) ∧ Inv1 G root v1 st1) := by
  intro n
  induction n with
  | zero =>
    intro visited stats k log hInv hlog
    constructor
    · intro log1 e h
      simp only [tree_searchLoop, Prod.mk.injEq] at h
      exact absurd h.2 (by simp)
    · intro log1 v1 st1 k1 h
      simp only [tree_searchLoop, Prod.mk.injEq, Except.ok.injEq] at h
      obtain ⟨hl, hv, hst, -⟩ := h
      exact ⟨hl ▸ hlog, hv ▸ hst ▸ hInv⟩
  | succ n ih =>
    intro visited stats k log hInv hlog
    obtain ⟨hroot, hiff, hnp⟩ := hInv
    have hwalk := tree_policyAux_walk G visited stats rng hiff hnp fuel root
      [] k log hroot hlog
    rcases hpol : tree_policyAux G visited stats rng fuel root [] k log with
      ⟨log2, r⟩
    cases r with
    | error e =>
      have hlog2 := hwalk.1 log2 e hpol
      constructor
      · intro log1 e1 h
        simp only [tree_searchLoop, hpol, Prod.mk.injEq] at h
        exact h.1 ▸ hlog2
      · intro log1 v1 st1 k1 h
        simp only [tree_searchLoop, hpol, Prod.mk.injEq] at h
        exact absurd h.2 (by simp)
    | ok q =>
      obtain ⟨selected, k2⟩ := q
      obtain ⟨hlog2, hexp, -⟩ := hwalk.2 log2 selected k2 hpol
      rcases hsim : run_simulation G fuel selected.expanded_node
          (G.player root) rng k2 with e | p
      · constructor
        · intro log1 e1 h
          simp only [tree_searchLoop, hpol, hsim, Prod.mk.injEq] at h
          exact h.1 ▸ hlog2
        · intro log1 v1 st1 k1 h
          simp only [tree_searchLoop, hpol, hsim, Prod.mk.injEq] at h
          exact absurd h.2 (by simp)
      · obtain ⟨result, k3⟩ := p
        have hInvNext := iteration_preserves G root visited stats selected
          result ⟨hroot, hiff, hnp⟩ hexp
        have hnext := ih _ _ k3 log2 hInvNext hlog2
        constructor
        · intro log1 e1 h
          simp only [tree_searchLoop, hpol, hsim] at h
          exact hnext.1 log1 e1 h
        · intro log1 v1 st1 k1 h
          simp only [tree_searchLoop, hpol, hsim] at h
          exact hnext.2 log1 v1 st1 k1 h

/-- On the very first iteration (visited set and store holding exactly
the root), the walk never reaches the ucb1 branch of an alternating
game: it either runs out of fuel with an empty log or returns, with an
empty log, a path containing both the root and the expanded node. -/
lemma tree_policy_first (root : State) (rng : ℕ → ℕ)
    (halt : Alternating G) (fuel k : ℕ) :
    (∀ log1 e, tree_policyAux G (fun s => decide (s = root))
        (fun s => if s = root then some (UCTData.new 0 0) else none)
        rng fuel root [] k [] = (log1, Except.error e) → log1 = []) ∧
    (∀ log1 res k1, tree_policyAux G (fun s => decide (s = root))
        (fun s => if s = root then some (UCTData.new 0 0) else none)
        rng fuel root [] k [] = (log1, Except.ok (res, k1)) →
      log1 = [] ∧ res.expanded_node ∈ res.path ∧ root ∈ res.path) := by
  cases fuel with
  | zero =>
    constructor
    · intro log1 e h
      simp only [tree_policyAux, Prod.mk.injEq] at h
      exact h.1.symm
    · intro log1 res k1 h
      simp only [tree_policyAux, Prod.mk.injEq] at h
      exact absurd h.2 (by simp)
  | succ fuel =>
    by_cases h1 : (G.legal_moves root (G.player root)).length < 1 ∨
        victory (G.win root) = true
    · constructor
      · intro log1 e h
        simp only [tree_policyAux, if_pos h1, Prod.mk.injEq] at h
        exact absurd h.2 (by simp)
      · intro log1 res k1 h
        simp only [tree_policyAux, if_pos h1, Prod.mk.injEq,
          Except.ok.injEq] at h
        obtain ⟨hl, hr, -⟩ := h
        refine ⟨hl.symm, ?_, ?_⟩ <;> rw [← hr] <;> simp
    · have hpm_ne : G.legal_moves root (G.player root) ≠ [] := by
        intro hnil
        exact h1 (Or.inl (by rw [hnil]; simp))
      have hchild : ∀ m : Move, decide (G.place root m = root) = false := by
        intro m
        simp only [decide_eq_false_iff_not]
        intro he
        exact halt root m (by rw [he])
      have h2 : (G.legal_moves root (G.player root)).foldl
          (fun acc x =>
            acc && (fun s => decide (s = root)) (G.place root x)) true =
          false := by
        rw [foldl_and_eq_all]
        simp only [Bool.true_and]
        obtain ⟨m0, hm0⟩ := List.exists_mem_of_ne_nil _ hpm_ne
        cases hb : (G.legal_moves root (G.player root)).all
            (fun x => (fun s => decide (s = root)) (G.place root x)) with
        | false => rfl
        | true =>
          have := List.all_eq_true.mp hb m0 hm0
          simp only [hchild m0] at this
          cases this
      have hfil_ne : (G.legal_moves root (G.player root)).filter
          (fun x => !(fun s => decide (s = root)) (G.place root x)) ≠ [] := by
        obtain ⟨m0, hm0⟩ := List.exists_mem_of_ne_nil _ hpm_ne
        refine List.ne_nil_of_mem (List.mem_filter.mpr ⟨hm0, ?_⟩)
        simp only [hchild m0]
        rfl
      obtain ⟨mr, hok, -⟩ := choose_random_ok _ (rng k) hfil_ne
      constructor
      · intro log1 e h
        simp only [tree_policyAux, if_neg h1, if_pos h2, hok,
          Prod.mk.injEq] at h
        exact absurd h.2 (by simp)
      · intro log1 res k1 h
        simp only [tree_policyAux, if_neg h1, if_pos h2, hok,
          Prod.mk.injEq, Except.ok.injEq] at h
        obtain ⟨hl, hr, -⟩ := h
        refine ⟨hl.symm, ?_, ?_⟩ <;> rw [← hr] <;> simp

/-- From the initial visited set and store (exactly the root with zero
statistics), every run of the search loop of an alternating game logs
only play counts of at least one, and on success the final state either
satisfies the invariant or is still the untouched initial state (zero
iterations). -/
lemma tree_searchLoop_init (root : State) (rng : ℕ → ℕ) (fuel : ℕ)
    (halt : Alternating G) (n : ℕ) :
    (∀ log1 e,
      tree_searchLoop G root rng fuel n (fun s => decide (s = root))
        (fun s => if s = root then some (UCTData.new 0 0) else none) 0 [] =
        (log1, Except.error e) → ∀ x ∈ log1, 1 ≤ x) ∧
    (∀ log1 v1 st1 k1,
      tree_searchLoop G root rng fuel n (fun s => decide (s = root))
        (fun s => if s = root then some (UCTData.new 0 0) else none) 0 [] =
        (log1, Except.ok (v1, st1, k1)) →
      (∀ x ∈ log1, 1 ≤ x) ∧
      (Inv1 G root v1 st1 ∨
        ((v1 = fun s => decide (s = root)) ∧
         (st1 = fun s => if s = root then some (UCTData.new 0 0) else none)))) := by
  cases n with
  | zero =>
    constructor
    · intro log1 e h
      simp only [tree_searchLoop, Prod.mk.injEq] at h
      exact absurd h.2 (by simp)
    · intro log1 v1 st1 k1 h
      simp only [tree_searchLoop, Prod.mk.injEq, Except.ok.injEq] at h
      obtain ⟨hl, hv, hst, -⟩ := h
      refine ⟨?_, Or.inr ⟨hv.symm, hst.symm⟩⟩
      rw [← hl]
      simp
  | succ n =>
    have hfirst := tree_policy_first G root rng halt fuel 0
    rcases hpol : tree_policyAux G (fun s => decide (s = root))
        (fun s => if s = root then some (UCTData.new 0 0) else none)
        rng fuel root [] 0 [] with ⟨log2, r⟩
    cases r with
    | error e =>
      have hl2 : log2 = [] := hfirst.1 log2 e hpol
      constructor
      · intro log1 e1 h
        simp only [tree_searchLoop, hpol, Prod.mk.injEq] at h
        rw [← h.1, hl2]
        simp
      · intro log1 v1 st1 k1 h
        simp only [tree_searchLoop, hpol, Prod.mk.injEq] at h
        exact absurd h.2 (by simp)
    | ok q =>
      obtain ⟨selected, k2⟩ := q
      obtain ⟨hl2, hexp, hrootp⟩ := hfirst.2 log2 selected k2 hpol
      rcases hsim : run_simulation G fuel selected.expanded_node
          (G.player root) rng k2 with e | p
      · constructor
        · intro log1 e1 h
          simp only [tree_searchLoop, hpol, hsim, Prod.mk.injEq] at h
          rw [← h.1, hl2]
          simp
        · intro log1 v1 st1 k1 h
          simp only [tree_searchLoop, hpol, hsim, Prod.mk.injEq] at h
          exact absurd h.2 (by simp)
      · obtain ⟨result, k3⟩ := p
        have hInv1 : Inv1 G root
            (if (fun s => decide (s = root)) selected.expanded_node = false then
              fun s => if s = selected.expanded_node then true
              else (fun s => decide (s = root)) s
             else fun s => decide (s = root))
            (back_propogate G result
              (if (fun s => decide (s = root)) selected.expanded_node = false then
                fun s => if s = selected.expanded_node then
                  some (UCTData.new 0 0)
                else (fun s => if s = root then some (UCTData.new 0 0)
                  else none) s
               else fun s => if s = root then some (UCTData.new 0 0) else none)
              selected.path) := by
          by_cases hv : (fun s => decide (s = root)) selected.expanded_node =
              false
          · rw [if_pos hv, if_pos hv]
            apply Inv1_back_propogate
            · by_cases hre : root = selected.expanded_node
              · simp [hre]
              · simp [hre]
            · intro s
              by_cases hse : s = selected.expanded_node
              · simp [hse]
              · by_cases hsr : s = root
                · simp [hse, hsr]
                · simp [hse, hsr]
            · intro s d hd
              by_cases hse : s = selected.expanded_node
              · rw [if_pos hse] at hd
                injection hd with he
                exact Or.inr ⟨hse ▸ hexp, by rw [← he]; exact le_refl _⟩
              · rw [if_neg hse] at hd
                simp only [] at hd
                by_cases hsr : s = root
                · rw [if_pos hsr] at hd
                  injection hd with he
                  exact Or.inr ⟨hsr ▸ hrootp, by rw [← he]; exact le_refl _⟩
                · rw [if_neg hsr] at hd
                  cases hd
          · rw [if_neg hv, if_neg hv]
            apply Inv1_back_propogate
            · simp
            · intro s
              by_cases hsr : s = root <;> simp [hsr]
            · intro s d hd
              simp only [] at hd
              by_cases hsr : s = root
              · rw [if_pos hsr] at hd
                injection hd with he
                exact Or.inr ⟨hsr ▸ hrootp, by rw [← he]; exact le_refl _⟩
              · rw [if_neg hsr] at hd
                cases hd
        have hnext := tree_searchLoop_inv G root rng fuel n _ _ k3 log2 hInv1
          (by rw [hl2]; simp)
        constructor
        · intro log1 e1 h
          simp only [tree_searchLoop, hpol, hsim] at h
          exact hnext.1 log1 e1 h
        · intro log1 v1 st1 k1 h
          simp only [tree_searchLoop, hpol, hsim] at h
          exact ⟨(hnext.2 log1 v1 st1 k1 h).1,
            Or.inl (hnext.2 log1 v1 st1 k1 h).2⟩

/-- A successful construction of the finalize pairs means every legal
move's child has an entry, and the pairs are the legal moves zipped with
their entries. -/
lemma root_move_stats_ok (stats : State → Option UCTData) (root : State) :
    ∀ (ms : List Move) (prs : List (Move × UCTData)),
      root_move_stats G stats root ms = Except.ok prs →
      (∀ m ∈ ms, (stats (G.place root m)).isSome = true) ∧
      prs = ms.map
        (fun m => (m, (stats (G.place root m)).getD (UCTData.new 0 0))) := by
  intro ms
  induction ms with
  | nil =>
    intro prs h
    simp only [root_move_stats, Except.ok.injEq] at h
    subst h
    exact ⟨by simp, by simp⟩
  | cons x rest ih =>
    intro prs h
    cases hx : stats (G.place root x) with
    | none =>
      simp only [root_move_stats, hx] at h
      cases h
    | some d =>
      simp only [root_move_stats, hx] at h
      cases hrest : root_move_stats G stats root rest with
      | error e =>
        rw [hrest] at h
        cases h
      | ok l =>
        rw [hrest] at h
        simp only [Except.ok.injEq] at h
        obtain ⟨hall, hmap⟩ := ih l hrest
        subst h
        constructor
        · intro mv hmv
          rcases List.mem_cons.mp hmv with h0 | h0
          · rw [h0, hx]
            rfl
          · exact hall mv h0
        · rw [List.map_cons, ← hmap, hx]
          rfl

/-- Whenever tree_search succeeds on an alternating game with a
non-empty root move list, every root child carries a positive play
count in the final store, and the returned move is the selection fold
over the (move, entry) pairs. -/
lemma tree_searchFull_ok_cases (root : State) (rng : ℕ → ℕ) (fuel n : ℕ)
    (m : Move) (stf : State → Option UCTData) (halt : Alternating G)
    (hok : (tree_searchFull G root rng fuel n).2 = Except.ok (m, stf))
    (hne : G.legal_moves root (G.player root) ≠ []) :
    (∀ mv ∈ G.legal_moves root (G.player root),
      ∃ d, stf (G.place root mv) = some d ∧ 1 ≤ d.num_plays) ∧
    m = (selLoop Prod.fst (fun p => p.2.num_plays)
      ((G.legal_moves root (G.player root)).map
        (fun mv => (mv, (stf (G.place root mv)).getD (UCTData.new 0 0))))
      (G.white_new_zero, 0)).1 := by
  have hinit := tree_searchLoop_init G root rng fuel halt n
  rcases hloop : tree_searchLoop G root rng fuel n (fun s => decide (s = root))
      (fun s => if s = root then some (UCTData.new 0 0) else none) 0 [] with
    ⟨log0, r⟩
  cases r with
  | error e =>
    simp only [tree_searchFull, hloop] at hok
    cases hok
  | ok q =>
    obtain ⟨v1, st1, k1⟩ := q
    obtain ⟨-, hcases⟩ := hinit.2 log0 v1 st1 k1 hloop
    simp only [tree_searchFull, hloop] at hok
    cases hstats : root_move_stats G st1 root
        (G.legal_moves root (G.player root)) with
    | error e =>
      simp only [hstats] at hok
      cases hok
    | ok prs =>
      simp only [hstats] at hok
      obtain ⟨hallS, hprs⟩ := root_move_stats_ok G st1 root _ prs hstats
      cases hbest : st1 (G.place root (optimal_move_most_visisted G prs)) with
      | none =>
        simp only [hbest] at hok
        cases hok
      | some dbest =>
        simp only [hbest] at hok
        simp only [Except.ok.injEq, Prod.mk.injEq] at hok
        obtain ⟨hm, hst⟩ := hok
        subst hst
        rcases hcases with hInv | ⟨hv0, hst0⟩
        · obtain ⟨-, -, hnp⟩ := hInv
          constructor
          · intro mv hmv
            obtain ⟨d, hd⟩ := Option.isSome_iff_exists.mp (hallS mv hmv)
            exact ⟨d, hd, hnp _ d hd⟩
          · rw [← hm, optimal_move_most_visisted, hprs]
        · exfalso
          obtain ⟨m0, hm0⟩ := List.exists_mem_of_ne_nil _ hne
          have hsome := hallS m0 hm0
          rw [hst0] at hsome
          simp only [] at hsome
          by_cases hpr : G.place root m0 = root
          · exact halt root m0 (by rw [hpr])
          · rw [if_neg hpr] at hsome
            cases hsome

end InvariantLemmas

section ClaimC6

/-- C6: on every run of tree_search over an alternating game, every play
count handed to ucb1 (as recorded by the instrumentation log) is at
least one, so the division-by-zero case of ucb1 is unreachable. -/
theorem C6_ucb1_positive_plays {State Move : Type} [DecidableEq State]
    (G : GameIface State Move) (root : State) (rng : ℕ → ℕ) (fuel n : ℕ)
    (halt : Alternating G) :
    ∀ x ∈ (tree_searchFull G root rng fuel n).1, 1 ≤ x := by
  have hinit := tree_searchLoop_init G root rng fuel halt n
  rcases hloop : tree_searchLoop G root rng fuel n (fun s => decide (s = root))
      (fun s => if s = root then some (UCTData.new 0 0) else none) 0 [] with
    ⟨log0, r⟩
  cases r with
  | error e =>
    have hl := hinit.1 log0 e hloop
    simp only [tree_searchFull, hloop]
    exact hl
  | ok q =>
    obtain ⟨v1, st1, k1⟩ := q
    have hl := (hinit.2 log0 v1 st1 k1 hloop).1
    simp only [tree_searchFull, hloop]
    cases hstats : root_move_stats G st1 root
        (G.legal_moves root (G.player root)) with
    | error e =>
      simp only [hstats]
      exact hl
    | ok prs =>
      simp only [hstats]
      cases hbest : st1 (G.place root (optimal_move_most_visisted G prs)) with
      | none =>
        simp only [hbest]
        exact hl
      | some dbest =>
        simp only [hbest]
        exact hl

end ClaimC6

section ClaimC3

/-- C3: whenever tree_search succeeds on an alternating game whose root
has at least one legal move, the returned move is the first legal move
in iteration order whose child holds the greatest play count in the
final store: every earlier move counts strictly less, and no move counts
more (a later equal count does not replace the leader). -/
theorem C3_finalize_most_visited {State Move : Type} [DecidableEq State]
    (G : GameIface State Move) (root : State) (rng : ℕ → ℕ) (fuel n : ℕ)
    (m : Move) (stf : State → Option UCTData) (halt : Alternating G)
    (hok : (tree_searchFull G root rng fuel n).2 = Except.ok (m, stf))
    (hne : G.legal_moves root (G.player root) ≠ []) :
    ∃ i, ∃ h : i < (G.legal_moves root (G.player root)).length,
      m = (G.legal_moves root (G.player root)).get ⟨i, h⟩ ∧
      (∀ j, ∀ hj : j < (G.legal_moves root (G.player root)).length, j < i →
        childPlays G stf root
            ((G.legal_moves root (G.player root)).get ⟨j, hj⟩) <
          childPlays G stf root
            ((G.legal_moves root (G.player root)).get ⟨i, h⟩)) ∧
      (∀ j, ∀ hj : j < (G.legal_moves root (G.player root)).length,
        childPlays G stf root
            ((G.legal_moves root (G.player root)).get ⟨j, hj⟩) ≤
          childPlays G stf root
            ((G.legal_moves root (G.player root)).get ⟨i, h⟩)) := by
  obtain ⟨hall, hm⟩ := tree_searchFull_ok_cases G root rng fuel n m stf halt
    hok hne
  have hex : ∃ p ∈ (G.legal_moves root (G.player root)).map
      (fun mv => (mv, (stf (G.place root mv)).getD (UCTData.new 0 0))),
      ((G.white_new_zero, (0 : ℤ)) : Move × ℤ).2 < p.2.num_plays := by
    obtain ⟨m0, hm0⟩ := List.exists_mem_of_ne_nil _ hne
    obtain ⟨d, hd, hdnp⟩ := hall m0 hm0
    refine ⟨(m0, (stf (G.place root m0)).getD (UCTData.new 0 0)),
      List.mem_map.mpr ⟨m0, hm0, rfl⟩, ?_⟩
    rw [hd]
    simp only [Option.getD_some]
    omega
  obtain ⟨i, hi, heq, hgt, hstrict, hmax⟩ :=
    selLoop_first_argmax Prod.fst
      (fun p : Move × UCTData => p.2.num_plays)
      ((G.legal_moves root (G.player root)).map
        (fun mv => (mv, (stf (G.place root mv)).getD (UCTData.new 0 0))))
      (G.white_new_zero, 0) hex
  have hlen : ((G.legal_moves root (G.player root)).map
      (fun mv => (mv, (stf (G.place root mv)).getD (UCTData.new 0 0)))).length =
      (G.legal_moves root (G.player root)).length := List.length_map _ _
  have hget : ∀ j, ∀ hjm : j < ((G.legal_moves root (G.player root)).map
      (fun mv => (mv, (stf (G.place root mv)).getD (UCTData.new 0 0)))).length,
      ∀ hj : j < (G.legal_moves root (G.player root)).length,
      ((G.legal_moves root (G.player root)).map
        (fun mv => (mv, (stf (G.place root mv)).getD (UCTData.new 0 0)))).get
          ⟨j, hjm⟩ =
        ((G.legal_moves root (G.player root)).get ⟨j, hj⟩,
         (stf (G.place root
           ((G.legal_moves root (G.player root)).get ⟨j, hj⟩))).getD
           (UCTData.new 0 0)) := by
    intro j hjm hj
    simp [List.get_eq_getElem, List.getElem_map]
  refine ⟨i, hlen ▸ hi, ?_, ?_, ?_⟩
  · rw [hm, heq, hget i hi (hlen ▸ hi)]
  · intro j hj hji
    have h2 := hstrict j (by rw [hlen]; exact hj) hji
    rw [hget j (by rw [hlen]; exact hj) hj, hget i hi (hlen ▸ hi)] at h2
    simpa [childPlays] using h2
  · intro j hj
    have h2 := hmax j (by rw [hlen]; exact hj)
    rw [hget j (by rw [hlen]; exact hj) hj, hget i hi (hlen ▸ hi)] at h2
    simpa [childPlays] using h2

end ClaimC3

section ClaimC4

/-- C4 (amended): whenever tree_search completes successfully on an
alternating game whose root has exactly one legal move, it returns that
move. -/
theorem C4_single_move {State Move : Type} [DecidableEq State]
    (G : GameIface State Move) (root : State) (rng : ℕ → ℕ) (fuel n : ℕ)
    (m m1 : Move) (halt : Alternating G)
    (hok : tree_search G root rng fuel n = Except.ok m)
    (hone : G.legal_moves root (G.player root) = [m1]) :
    m = m1 := by
  simp only [tree_search] at hok
  cases hfull : (tree_searchFull G root rng fuel n).2 with
  | error e =>
    rw [hfull] at hok
    cases hok
  | ok p =>
    obtain ⟨m', stf⟩ := p
    rw [hfull] at hok
    simp only [Except.map, Except.ok.injEq] at hok
    subst hok
    obtain ⟨hall, hm⟩ := tree_searchFull_ok_cases G root rng fuel n m' stf
      halt hfull (by rw [hone]; simp)
    rw [hone] at hall hm
    obtain ⟨d, hd, hdnp⟩ := hall m1 (by simp)
    have hpos : ((G.white_new_zero, (0 : ℤ)) : Move × ℤ).2 <
        ((stf (G.place root m1)).getD (UCTData.new 0 0)).num_plays := by
      rw [hd]
      simp only [Option.getD_some]
      omega
    rw [hm]
    simp only [List.map_cons, List.map_nil, selLoop]
    rw [if_pos hpos]

end ClaimC4

section ConcreteSearchGames



/-- The single-move game is alternating. -/
lemma oneMove_alternating : Alternating oneMoveGame := by
  unfold Alternating
  decide

/-- The single-move game's root move list. -/
lemma oneMove_legal :
    oneMoveGame.legal_moves 0 (oneMoveGame.player 0) = [(0 : Fin 1)] := rfl

/-- The single-move game's root child. -/
lemma oneMove_place : oneMoveGame.place 0 0 = (1 : Fin 3) := rfl

/-- The first tree-policy walk expands the single child. -/
lemma oneMove_policy :
    tree_policyAux oneMoveGame (fun s => decide (s = (0 : Fin 3)))
      (fun s => if s = (0 : Fin 3) then some (UCTData.new 0 0) else none)
      (fun _ => 0) 5 0 [] 0 [] =
      ([], Except.ok (⟨[0, 1], 1⟩, 1)) := by
  have h10 : ¬((1 : Fin 3) = 0) := by decide
  norm_num [tree_policyAux, choose_random, oneMoveGame, victory, h10]

/-- The playout from the expanded child stops at once with the win. -/
lemma oneMove_sim :
    run_simulation oneMoveGame 5 (1 : Fin 3) (oneMoveGame.player 0)
      (fun _ => 0) 1 = Except.ok (End.Victory Color.White, 1) := by
  norm_num [run_simulation, run_simulationAux, victory, oneMoveGame]

/-- Backpropagating the win over the two-node path yields the recorded
store. -/
lemma oneMove_bp :
    back_propogate oneMoveGame (End.Victory Color.White)
      (fun s : Fin 3 => if s = 1 then some (UCTData.new 0 0)
        else if s = 0 then some (UCTData.new 0 0) else none) [0, 1] =
      oneMoveStats := by
  have hcol : ¬(Color.White = Color.Black) := by decide
  funext s
  fin_cases s <;>
    norm_num [back_propogate, back_propogateStep, oneMoveGame, oneMoveStats,
      get_result_value, get_tie_or_win, state_previous_player, UCTData.new,
      hcol, Fin.ext_iff]

/-- One full iteration of tree_search on the single-move game returns the
single move together with the recorded store. -/
lemma oneMove_eval :
    (tree_searchFull oneMoveGame 0 (fun _ => 0) 5 1).2 =
      Except.ok ((0 : Fin 1), oneMoveStats) := by
  have h10 : ¬((1 : Fin 3) = 0) := by decide
  simp only [tree_searchFull, tree_searchLoop, oneMove_policy, oneMove_sim,
    oneMove_bp]
  norm_num [oneMove_legal, oneMove_place, oneMove_bp, root_move_stats,
    optimal_move_most_visisted, selLoop, oneMoveStats, h10]

end ConcreteSearchGames

section ClaimC4Concrete

/-- C4 (counterexample to the claim as stated): with zero completed
iterations, a root with exactly one legal move does not yield that move;
the finalize lookup of the never-expanded child panics (modelled as the
missing-statistics error), so no move at all is returned. -/
theorem C4_counterexample :
    oneMoveGame.legal_moves 0 (oneMoveGame.player 0) = [(0 : Fin 1)] ∧
    (tree_searchFull oneMoveGame 0 (fun _ => 0) 5 0).2 =
      Except.error Err.missingStats := by
  refine ⟨rfl, ?_⟩
  have h10 : ¬((1 : Fin 3) = 0) := by decide
  norm_num [tree_searchFull, tree_searchLoop, root_move_stats,
    oneMove_legal, oneMove_place, UCTData.new, h10]

/-- Witness for the amended C4: one completed iteration on the
single-move game returns its single move. -/
theorem C4_single_move_witness :
    Alternating oneMoveGame ∧
    tree_search oneMoveGame 0 (fun _ => 0) 5 1 = Except.ok (0 : Fin 1) ∧
    oneMoveGame.legal_moves 0 (oneMoveGame.player 0) = [(0 : Fin 1)] ∧
    (0 : Fin 1) = (0 : Fin 1) := by
  have hts : tree_search oneMoveGame 0 (fun _ => 0) 5 1 =
      Except.ok (0 : Fin 1) := by
    simp [tree_search, oneMove_eval, Except.map]
  exact ⟨oneMove_alternating, hts, rfl,
    C4_single_move oneMoveGame 0 (fun _ => 0) 5 1 0 0 oneMove_alternating hts
      rfl⟩

end ClaimC4Concrete

section ClaimC3Witness

/-- Witness for C3: on the single-move game after one iteration the
returned move is the first (and only) legal move, and it attains the
greatest play count. -/
theorem C3_finalize_most_visited_witness :
    Alternating oneMoveGame ∧
    (tree_searchFull oneMoveGame 0 (fun _ => 0) 5 1).2 =
      Except.ok ((0 : Fin 1), oneMoveStats) ∧
    oneMoveGame.legal_moves 0 (oneMoveGame.player 0) ≠ [] ∧
    (∃ i, ∃ h : i < (oneMoveGame.legal_moves 0 (oneMoveGame.player 0)).length,
      (0 : Fin 1) = (oneMoveGame.legal_moves 0 (oneMoveGame.player 0)).get
        ⟨i, h⟩ ∧
      (∀ j, ∀ hj : j < (oneMoveGame.legal_moves 0
          (oneMoveGame.player 0)).length, j < i →
        childPlays oneMoveGame oneMoveStats 0
            ((oneMoveGame.legal_moves 0 (oneMoveGame.player 0)).get
              ⟨j, hj⟩) <
          childPlays oneMoveGame oneMoveStats 0
            ((oneMoveGame.legal_moves 0 (oneMoveGame.player 0)).get
              ⟨i, h⟩)) ∧
      (∀ j, ∀ hj : j < (oneMoveGame.legal_moves 0
          (oneMoveGame.player 0)).length,
        childPlays oneMoveGame oneMoveStats 0
            ((oneMoveGame.legal_moves 0 (oneMoveGame.player 0)).get
              ⟨j, hj⟩) ≤
          childPlays oneMoveGame oneMoveStats 0
            ((oneMoveGame.legal_moves 0 (oneMoveGame.player 0)).get
              ⟨i, h⟩))) := by
  refine ⟨oneMove_alternating, oneMove_eval, by decide, ?_⟩
  exact C3_finalize_most_visited oneMoveGame 0 (fun _ => 0) 5 1 0 oneMoveStats
    oneMove_alternating oneMove_eval (by decide)

end ClaimC3Witness

section ClaimC6Witness

/-- Witness for C6 on the single-move game after one iteration. -/
theorem C6_ucb1_positive_plays_witness :
    Alternating oneMoveGame ∧
    ∀ x ∈ (tree_searchFull oneMoveGame 0 (fun _ => 0) 5 1).1, 1 ≤ x :=
  ⟨oneMove_alternating,
    C6_ucb1_positive_plays oneMoveGame 0 (fun _ => 0) 5 1 oneMove_alternating⟩

end ClaimC6Witness

section ClaimC5


/-- C5 (code bug): with an empty root move list the finalize selection
itself does return the canonical default move, but tree_search then
panics (modelled as the missing-statistics error) while looking up the
statistics entry of the position reached by that default move for the
diagnostic line, so it fails instead of returning the fallback. -/
theorem C5_empty_root_panics :
    noMoveGame.legal_moves 0 (noMoveGame.player 0) = [] ∧
    optimal_move_most_visisted noMoveGame [] = noMoveGame.white_new_zero ∧
    (tree_searchFull noMoveGame 0 (fun _ => 0) 5 1).2 =
      Except.error Err.missingStats := by
  refine ⟨rfl, rfl, ?_⟩
  have h10 : ¬((1 : Fin 2) = 0) := by decide
  norm_num [tree_searchFull, tree_searchLoop, tree_policyAux, run_simulation,
    run_simulationAux, victory, back_propogate, back_propogateStep,
    root_move_stats, optimal_move_most_visisted, selLoop, noMoveGame,
    UCTData.new, get_result_value, get_tie_or_win, state_previous_player,
    choose_random, h10]

end ClaimC5

end MonteCarlo
